import Mathlib

/-!
Verification of the rhymer engine core: a shallow embedding of the
phonetic feature extractor, the scoring engine, the compare engine, the
fuzzy pairwise rhyme checker and the build-time lexicon/index builder,
with theorems settling the specification claims.

JS floating-point numbers are modelled by exact rationals (ℚ); JS string
records are modelled by insertion-ordered association lists whose update
semantics mirror JS property assignment (existing key keeps its position,
new key is appended).
-/

namespace Rhymer

/-- Embeds `isVowel` (scripts/build_data.ts, src/engine/utils): a phoneme
symbol is a vowel iff it contains a decimal digit (`/[0-9]/.test`). -/
def isVowel (phoneme : String) : Bool :=
  phoneme.data.any (fun c => c.isDigit)

/-- Embeds `getStress` (scripts/build_data.ts): keep the vowel phonemes,
strip every non-digit character from each, concatenate. -/
def getStress (phonemes : List String) : String :=
  String.join ((phonemes.filter (fun p => isVowel p)).map
    (fun p => String.mk (p.data.filter (fun c => c.isDigit))))

/-- The suffix of the phoneme list starting at the last vowel phoneme
(`lastVowelIdx` scan of `getPerfectRhymeKey`), `none` when no vowel
phoneme exists. -/
def tailFromLastVowel : List String → Option (List String)
  | [] => none
  | p :: rest =>
    match tailFromLastVowel rest with
    | some t => some t
    | none => if isVowel p then some (p :: rest) else none

/-- Embeds `getPerfectRhymeKey` (src/engine/utils and
scripts/build_data.ts): join the phonemes from the last vowel to the end
with single spaces; `none` when no vowel exists. -/
def getPerfectRhymeKey (phonemes : List String) : Option String :=
  (tailFromLastVowel phonemes).map (fun t => String.intercalate " " t)

/-- Embeds `LexiconEntry` (src/engine/types.ts): phonemes `p`, stress
pattern `s`, syllable count `c`. -/
structure LexiconEntry where
  p : List String
  s : String
  c : Nat
deriving DecidableEq, Repr

/-- Embeds `scorePerfect` (src/engine/scoring): 1.0 when both rhyme keys
are defined and equal, 0.0 otherwise. -/
def scorePerfect (candidate target : LexiconEntry) : ℚ :=
  match getPerfectRhymeKey candidate.p, getPerfectRhymeKey target.p with
  | some cKey, some tKey => if cKey = tKey then 1 else 0
  | _, _ => 0

/-- The inner loop of `scoreNear`: walk the two phoneme lists from the
end, counting consecutive equal positions and stopping at the first
mismatch, for at most `checkLen` positions.  `i` is the loop counter
(position from the end, 1-based). -/
def nearMatchesFrom (cp tp : List String) (checkLen : Nat) (i : Nat) : Nat :=
  if i ≤ checkLen then
    if cp.getD (cp.length - i) "" = tp.getD (tp.length - i) "" then
      1 + nearMatchesFrom cp tp checkLen (i + 1)
    else 0
  else 0
termination_by checkLen + 1 - i

/-- Specification-side count for `scoreNear` (following the claim's
words): the number of leading positions on which the two lists agree,
stopping at the first mismatch. -/
def specNearMatchCount : List String → List String → Nat
  | a :: as, b :: bs => if a = b then 1 + specNearMatchCount as bs else 0
  | _, _ => 0

/-- Embeds `scoreNear` (src/engine/scoring): compare from the last
position backward over `checkLen = min n (shorter length)` positions,
count consecutive matches stopping at the first mismatch, divide the
count by `n`; 0 when `checkLen` is 0. -/
def scoreNear (candidate target : LexiconEntry) (n : Nat := 3) : ℚ :=
  let minLen := min candidate.p.length target.p.length
  let checkLen := min n minLen
  if checkLen = 0 then 0
  else (nearMatchesFrom candidate.p target.p checkLen 1 : ℚ) / (n : ℚ)

/-- Classic recursive Levenshtein definition (the Wagner–Fischer
recurrence): `levD s t i j` is the edit distance between the first `i`
characters of `s` and the first `j` characters of `t`, with unit-cost
insertion, deletion and substitution. -/
def levD (s t : List Char) : Nat → Nat → Nat
  | i, 0 => i
  | 0, j + 1 => j + 1
  | i + 1, j + 1 =>
    min (min (levD s t i (j + 1) + 1) (levD s t (i + 1) j + 1))
      (levD s t i j + (if s.getD i ' ' = t.getD j ' ' then 0 else 1))
termination_by i j => (i, j)

/-- The inner loop of the two-row `levenshtein` (src/engine/utils):
given the character `a = s[i]` of the outer iteration, the value
`left = v1[j]` already computed, the remaining characters `t[j..]` and
the remaining previous-row segment `v0[j..]`, produce `v1[j+1..]`. -/
def rowStep (a : Char) : Nat → List Char → List Nat → List Nat
  | _, [], _ => []
  | _, _ :: _, [] => []
  | left, b :: bs, d :: rest =>
    let c := min (min (left + 1) (rest.headD 0 + 1))
      (d + (if a = b then 0 else 1))
    c :: rowStep a c bs rest

/-- Embeds `levenshtein` (src/engine/utils): equal-string shortcut,
empty-string shortcuts, then the two-row dynamic program whose rows are
swapped after each outer iteration; the result is `v0[m]`. -/
def levenshtein (s t : String) : Nat :=
  if s = t then 0
  else
    let sd := s.data
    let td := t.data
    if sd.length = 0 then td.length
    else if td.length = 0 then sd.length
    else
      let final := (List.range sd.length).foldl
        (fun v0 i => (i + 1) :: rowStep (sd.getD i ' ') (i + 1) td v0)
        (List.range (td.length + 1))
      final.getD td.length 0

/-- Embeds `scoreStress` (src/engine/scoring): `max 0 (1 − dist/maxLen)`
over the stress-pattern strings, 0 when both are empty. -/
def scoreStress (candidate target : LexiconEntry) : ℚ :=
  let dist := levenshtein candidate.s target.s
  let maxLen := max candidate.s.length target.s.length
  if maxLen = 0 then 0
  else max 0 (1 - (dist : ℚ) / (maxLen : ℚ))

/-- Embeds `SchemeConfig` (src/engine/types.ts).  The id is a plain
string: the scoring switch falls through to 0 on unrecognized ids. -/
structure SchemeConfig where
  id : String
  weight : ℚ
deriving DecidableEq, Repr

/-- Embeds `Candidate` (src/engine/types.ts).  `schemeScores` models the
JS string-keyed record as an insertion-ordered association list. -/
structure Candidate where
  word : String
  totalScore : ℚ
  schemeScores : List (String × ℚ)
  breakdown : List String
  frequencyRank : Option Nat
deriving DecidableEq, Repr

/-- JS record assignment `m[k] = v`: overwrite in place when the key is
present, append otherwise. -/
def recordSet {β : Type} (m : List (String × β)) (k : String) (v : β) :
    List (String × β) :=
  match m with
  | [] => [(k, v)]
  | (k', v') :: rest =>
    if k' = k then (k', v) :: rest else (k', v') :: recordSet rest k v

/-- The per-target score dispatch (the `switch` in `scoreCandidate`):
perfect, near (default n = 3), stress, otherwise 0. -/
def perSchemeTargetScore (id : String) (candidateEntry target : LexiconEntry) : ℚ :=
  if id = "perfect" then scorePerfect candidateEntry target
  else if id = "near" then scoreNear candidateEntry target 3
  else if id = "stress" then scoreStress candidateEntry target
  else 0

/-- Accumulator of the scheme loop in `scoreCandidate`. -/
structure ScoreAcc where
  schemeScores : List (String × ℚ)
  totalWeightedScore : ℚ
  totalWeight : ℚ

/-- The body of the scheme loop in `scoreCandidate`: sum the per-target
scores, divide by the number of targets (0 when there are no targets),
record the per-scheme score, and accumulate the weighted sum and the
total weight. -/
def scoreStep (candidateEntry : LexiconEntry) (targets : List LexiconEntry)
    (acc : ScoreAcc) (scheme : SchemeConfig) : ScoreAcc :=
  let sumTargetScores := targets.foldl
    (fun s target => s + perSchemeTargetScore scheme.id candidateEntry target) 0
  let schemeVal := if 0 < targets.length then sumTargetScores / (targets.length : ℚ) else 0
  { schemeScores := recordSet acc.schemeScores scheme.id schemeVal,
    totalWeightedScore := acc.totalWeightedScore + schemeVal * scheme.weight,
    totalWeight := acc.totalWeight + scheme.weight }

/-- Embeds `scoreCandidate` (src/engine/scoring): run the scheme loop,
then the total score is the weighted mean, or 0 when the total weight is
not positive. -/
def scoreCandidate (candidateWord : String) (candidateEntry : LexiconEntry)
    (targets : List LexiconEntry) (schemes : List SchemeConfig) : Candidate :=
  let acc := schemes.foldl (scoreStep candidateEntry targets) ⟨[], 0, 0⟩
  let finalScore := if 0 < acc.totalWeight then acc.totalWeightedScore / acc.totalWeight else 0
  { word := candidateWord, totalScore := finalScore,
    schemeScores := acc.schemeScores, breakdown := [], frequencyRank := none }

/-- Specification-side per-scheme value (following the claim's words):
the arithmetic mean over all targets of the scheme's per-target score.
(In ℚ the empty-target case also yields 0, via division by zero.) -/
def specSchemeMean (candidateEntry : LexiconEntry) (targets : List LexiconEntry)
    (sch : SchemeConfig) : ℚ :=
  (targets.map (fun t => perSchemeTargetScore sch.id candidateEntry t)).sum /
    (targets.length : ℚ)

/-- The Lexicon artifact: a JS object word → entry, modelled as an
insertion-ordered association list (the `Object.entries` order). -/
abbrev Lexicon := List (String × LexiconEntry)

/-- JS `toUpperCase`, character by character. -/
def jsToUpper (w : String) : String := String.mk (w.data.map Char.toUpper)

/-- Embeds `CompareRequest` (src/engine/types.ts). -/
structure CompareRequest where
  targets : List String
  schemes : List SchemeConfig
  limit : Option Nat
deriving DecidableEq

/-- Embeds `CompareResponse` (src/engine/types.ts). -/
structure CompareResponse where
  candidates : List Candidate
deriving DecidableEq, Repr

/-- The value the sort comparator uses for a candidate's frequency rank:
`a.frequencyRank || 999999` — both a missing rank and a rank of 0 (JS
falsy) become the sentinel 999999. -/
def rankVal (c : Candidate) : Nat :=
  match c.frequencyRank with
  | some r => if r = 0 then 999999 else r
  | none => 999999

/-- The sort comparator of `compare` as a strict ordering test:
`candBefore a b` holds iff the comparator returns a negative number,
i.e. `a` sorts strictly before `b`. -/
def candBefore (a b : Candidate) : Bool :=
  let scoreDiff := b.totalScore - a.totalScore
  if 1 / 1000 < |scoreDiff| then decide (scoreDiff < 0)
  else decide (rankVal a < rankVal b)

/-- Stable insertion used to model `Array.prototype.sort` (which is
stable): a later element moves past every earlier element it does not
strictly precede. -/
def insertCand (x : Candidate) : List Candidate → List Candidate
  | [] => [x]
  | y :: ys => if candBefore x y then x :: y :: ys else y :: insertCand x ys

/-- Stable sort by the `compare` comparator. -/
def sortCands (l : List Candidate) : List Candidate :=
  l.foldl (fun acc x => insertCand x acc) []

/-- The body of the candidate loop in `compare`: skip target words,
score the candidate, keep it when at or above the 0.3 noise floor with
its frequency rank attached (sentinel 999999 when unknown). -/
def compareStep (normalizedTargets : List String)
    (targetEntries : List LexiconEntry) (schemes : List SchemeConfig)
    (frequencyMap : List (String × Nat))
    (acc : List Candidate) (we : String × LexiconEntry) : List Candidate :=
  if normalizedTargets.contains we.1 then acc
  else
    let scoreResult := scoreCandidate we.1 we.2 targetEntries schemes
    if 3 / 10 ≤ scoreResult.totalScore then
      acc ++ [{ scoreResult with
        frequencyRank := some ((frequencyMap.lookup we.1).getD 999999) }]
    else acc

/-- Embeds `RhymeEngine.compare` (src/engine/index.ts): resolve the
upper-cased targets, return an empty list when none resolves, otherwise
score every non-target lexicon word, keep those at or above the 0.3
noise floor with their frequency rank attached (sentinel 999999 when
unknown), sort with the comparator, and return the first
`req.limit || 50` candidates. -/
def compare (lex : Lexicon) (frequencyMap : List (String × Nat))
    (req : CompareRequest) : CompareResponse :=
  let normalizedTargets := req.targets.map jsToUpper
  let targetEntries := normalizedTargets.filterMap (fun t => lex.lookup t)
  if targetEntries.isEmpty then { candidates := [] }
  else
    let limit := match req.limit with
      | some l => if l = 0 then 50 else l
      | none => 50
    let scored := lex.foldl
      (compareStep normalizedTargets targetEntries req.schemes frequencyMap) []
    { candidates := (sortCands scored).take limit }

/-- JS `trim`: remove leading and trailing whitespace. -/
def jsTrim (w : String) : String :=
  String.mk (((w.data.dropWhile Char.isWhitespace).reverse.dropWhile
    Char.isWhitespace).reverse)

/-- JS `endsWith`. -/
def strEndsWith (w s : String) : Bool :=
  w.data.reverse.take s.data.length == s.data.reverse

/-- The canonicalization of `checkRhyme`: `toUpperCase().trim()`. -/
def canon (w : String) : String := jsTrim (jsToUpper w)

/-- The `resolve` helper of `checkRhyme`: direct lookup, then the single
IN → ING fallback. -/
def resolveWord (lex : Lexicon) (w : String) : Option LexiconEntry :=
  match lex.lookup w with
  | some e => some e
  | none =>
    if strEndsWith w "IN" then
      lex.lookup (String.mk (w.data.take (w.data.length - 2)) ++ "ING")
    else none

/-- The `getStressedVowel` helper of `checkRhyme`: the first phoneme
containing the character '1' or '2'. -/
def getStressedVowel (p : List String) : Option String :=
  p.find? (fun ph => ph.data.contains '1' || ph.data.contains '2')

/-- Embeds `RhymeEngine.checkRhyme` (src/engine/index.ts). -/
def checkRhyme (lex : Lexicon) (wordA wordB : String) : Bool :=
  let w1 := canon wordA
  let w2 := canon wordB
  if w1 = w2 then true
  else
    match resolveWord lex w1, resolveWord lex w2 with
    | some entryA, some entryB =>
      let perfectScore := scoreCandidate w1 entryA [entryB] [⟨"perfect", 1⟩]
      if perfectScore.totalScore = 1 then true
      else
        let nearScore := scoreCandidate w1 entryA [entryB] [⟨"near", 1⟩]
        if 3 / 5 ≤ nearScore.totalScore then true
        else
          match getStressedVowel entryA.p, getStressedVowel entryB.p with
          | some vA, some vB => decide (vA = vB)
          | _, _ => false
    | _, _ => false

/-- JS record array-append `(m[k] ||= []).push(w)`: push onto the
existing array in place, or create a one-element array at the end. -/
def recordAppend (m : List (String × List String)) (k w : String) :
    List (String × List String) :=
  match m with
  | [] => [(k, [w])]
  | (k', ws) :: rest =>
    if k' = k then (k', ws ++ [w]) :: rest else (k', ws) :: recordAppend rest k w

/-- The regex test `/\(\d+\)$/ .test(rawWord)` of the builder: the word
ends with a parenthesized non-empty run of digits. -/
def hasVariantSuffix (w : String) : Bool :=
  match w.data.reverse with
  | ')' :: rest =>
    let digits := rest.takeWhile (fun c => c.isDigit)
    decide (digits ≠ []) &&
      (match rest.drop digits.length with
       | '(' :: _ => true
       | _ => false)
  | _ => false

/-- The builder's `rawWord.replace(/\(\d+\)$/, '')`: strip the
parenthesized numeric variant suffix when present. -/
def stripVariantSuffix (w : String) : String :=
  match w.data.reverse with
  | ')' :: rest =>
    let digits := rest.takeWhile (fun c => c.isDigit)
    if digits = [] then w
    else
      match rest.drop digits.length with
      | '(' :: core => String.mk core.reverse
      | _ => w
  | _ => w

/-- The builder's tail key `phonemes.slice(-len).join(' ')`. -/
def tailKey (phonemes : List String) (len : Nat) : String :=
  String.intercalate " " (phonemes.drop (phonemes.length - len))

/-- The three artifacts accumulated by `build` (scripts/build_data.ts). -/
structure BuildState where
  lexicon : List (String × LexiconEntry)
  perfectIndex : List (String × List String)
  tailIndex : List (String × List String)
deriving DecidableEq, Repr

/-- Embeds the loop body of `build` (scripts/build_data.ts) for one raw
(word, phonemes) pair: skip when the pair is a variant whose stripped
key is already present; otherwise insert/overwrite the lexicon entry
and append the word to the perfect index (when the rhyme key exists) and
to the tail index for lengths 2 and 3 (when long enough). -/
def processPair (st : BuildState) (rawWord : String) (phonemes : List String) :
    BuildState :=
  let isVariant := hasVariantSuffix rawWord
  let word := stripVariantSuffix rawWord
  if isVariant && (st.lexicon.lookup word).isSome then st
  else
    let stress := getStress phonemes
    let entry : LexiconEntry := ⟨phonemes, stress, stress.length⟩
    let lex := recordSet st.lexicon word entry
    let pIdx := match getPerfectRhymeKey phonemes with
      | some perfKey => recordAppend st.perfectIndex perfKey word
      | none => st.perfectIndex
    let tIdx := [2, 3].foldl
      (fun ti len =>
        if len ≤ phonemes.length then recordAppend ti (tailKey phonemes len) word
        else ti)
      st.tailIndex
    { lexicon := lex, perfectIndex := pIdx, tailIndex := tIdx }

/-- Embeds `build` (scripts/build_data.ts) over a list of raw pairs. -/
def build (pairs : List (String × List String)) : BuildState :=
  pairs.foldl (fun st pr => processPair st pr.1 pr.2) ⟨[], [], []⟩

/-- Sample entry: CAT → [K, AE1, T]. -/
def entryCAT : LexiconEntry := ⟨["K", "AE1", "T"], "1", 1⟩

/-- Sample entry: BAT → [B, AE1, T]. -/
def entryBAT : LexiconEntry := ⟨["B", "AE1", "T"], "1", 1⟩

/-- Sample entry: HAT → [HH, AE1, T]. -/
def entryHAT : LexiconEntry := ⟨["HH", "AE1", "T"], "1", 1⟩

/-- Sample entry: DOG → [D, AO1, G]. -/
def entryDOG : LexiconEntry := ⟨["D", "AO1", "G"], "1", 1⟩

/-- Sample four-word lexicon in insertion order. -/
def lexSample : Lexicon :=
  [("CAT", entryCAT), ("BAT", entryBAT), ("HAT", entryHAT), ("DOG", entryDOG)]

/-!
## Theorems
-/

theorem tailFromLastVowel_eq_none_iff (l : List String) :
    tailFromLastVowel l = none ↔ ∀ x ∈ l, isVowel x = false := by
  induction l with
  | nil => simp [tailFromLastVowel]
  | cons p rest ih =>
    cases h : tailFromLastVowel rest with
    | some t =>
      simp only [tailFromLastVowel, h]
      constructor
      · intro hc; exact absurd hc (by simp)
      · intro hall
        have hnone : tailFromLastVowel rest = none :=
          ih.mpr (fun x hx => hall x (List.mem_cons_of_mem _ hx))
        rw [hnone] at h; exact absurd h (by simp)
    | none =>
      simp only [tailFromLastVowel, h]
      by_cases hv : isVowel p
      · simp only [if_pos hv]
        constructor
        · intro hc; exact absurd hc (by simp)
        · intro hall; exact absurd (hall p (List.mem_cons_self _ _)) (by simp [hv])
      · simp only [if_neg hv]
        constructor
        · intro _ x hx
          rcases List.mem_cons.mp hx with rfl | hx'
          · simpa using hv
          · exact (ih.mp h) x hx'
        · intro _; trivial

theorem tailFromLastVowel_concat (pre : List String) (v : String)
    (rest : List String) (hv : isVowel v = true)
    (hrest : ∀ x ∈ rest, isVowel x = false) :
    tailFromLastVowel (pre ++ v :: rest) = some (v :: rest) := by
  induction pre with
  | nil =>
    have h0 : tailFromLastVowel rest = none :=
      (tailFromLastVowel_eq_none_iff rest).mpr hrest
    simp [tailFromLastVowel, h0, hv]
  | cons a pre ih =>
    simp [tailFromLastVowel, ih]

theorem tailFromLastVowel_eq_some_iff (l s : List String) :
    tailFromLastVowel l = some s ↔
      ∃ pre v rest, l = pre ++ v :: rest ∧ isVowel v = true ∧
        (∀ x ∈ rest, isVowel x = false) ∧ s = v :: rest := by
  constructor
  · intro h
    induction l with
    | nil => simp [tailFromLastVowel] at h
    | cons p rest ih =>
      rw [tailFromLastVowel] at h
      cases hr : tailFromLastVowel rest with
      | some t =>
        rw [hr] at h
        simp only [Option.some.injEq] at h
        subst h
        obtain ⟨pre', v, r', hl, hv, hr', hs⟩ := ih hr
        exact ⟨p :: pre', v, r', by rw [hl]; rfl, hv, hr', hs⟩
      | none =>
        rw [hr] at h
        by_cases hv : isVowel p
        · rw [if_pos hv] at h
          simp only [Option.some.injEq] at h
          exact ⟨[], p, rest, rfl, hv,
            (tailFromLastVowel_eq_none_iff rest).mp hr, h.symm⟩
        · rw [if_neg hv] at h
          exact absurd h (by simp)
  · rintro ⟨pre, v, rest, rfl, hv, hrest, rfl⟩
    exact tailFromLastVowel_concat pre v rest hv hrest

theorem getPerfectRhymeKey_eq_some_iff (l : List String) (k : String) :
    getPerfectRhymeKey l = some k ↔
      ∃ pre v rest, l = pre ++ v :: rest ∧ isVowel v = true ∧
        (∀ x ∈ rest, isVowel x = false) ∧ k = String.intercalate " " (v :: rest) := by
  unfold getPerfectRhymeKey
  rw [Option.map_eq_some']
  constructor
  · rintro ⟨s, hs, rfl⟩
    obtain ⟨pre, v, rest, rfl, hv, hrest, rfl⟩ :=
      (tailFromLastVowel_eq_some_iff _ _).mp hs
    exact ⟨pre, v, rest, rfl, hv, hrest, rfl⟩
  · rintro ⟨pre, v, rest, rfl, hv, hrest, rfl⟩
    exact ⟨v :: rest,
      (tailFromLastVowel_eq_some_iff _ _).mpr ⟨pre, v, rest, rfl, hv, hrest, rfl⟩, rfl⟩

theorem getPerfectRhymeKey_eq_none_iff (l : List String) :
    getPerfectRhymeKey l = none ↔ ∀ v ∈ l, isVowel v = false := by
  unfold getPerfectRhymeKey
  rw [Option.map_eq_none']
  exact tailFromLastVowel_eq_none_iff l

theorem exists_vowel_of_key_some (l : List String) (k : String)
    (h : getPerfectRhymeKey l = some k) : ∃ v ∈ l, isVowel v = true := by
  obtain ⟨pre, v, rest, rfl, hv, -, -⟩ := (getPerfectRhymeKey_eq_some_iff l k).mp h
  exact ⟨v, by simp, hv⟩

theorem key_some_of_exists_vowel (l : List String)
    (h : ∃ v ∈ l, isVowel v = true) : ∃ k, getPerfectRhymeKey l = some k := by
  cases hk : getPerfectRhymeKey l with
  | some k => exact ⟨k, rfl⟩
  | none =>
    obtain ⟨v, hmem, hv⟩ := h
    have := (getPerfectRhymeKey_eq_none_iff l).mp hk v hmem
    simp [hv] at this

/-- C6: `scorePerfect` returns 1 iff both phoneme sequences contain a
vowel phoneme (a symbol with a digit) and their perfect rhyme keys are
equal, and 0 otherwise; the key of a phoneme list is the subsequence
from the last vowel phoneme to the end joined with single spaces, and is
undefined exactly when no vowel phoneme exists; concretely,
`perfectRhymeKey [K, AE1, T] = "AE1 T"` and `scorePerfect CAT BAT = 1`. -/
theorem c6_scorePerfect_key_characterization :
    (∀ c t : LexiconEntry,
      (scorePerfect c t = 1 ∨ scorePerfect c t = 0) ∧
      (scorePerfect c t = 1 ↔
        (∃ v ∈ c.p, isVowel v = true) ∧ (∃ v ∈ t.p, isVowel v = true) ∧
          getPerfectRhymeKey c.p = getPerfectRhymeKey t.p)) ∧
    (∀ (l : List String) (k : String), getPerfectRhymeKey l = some k ↔
      ∃ pre v rest, l = pre ++ v :: rest ∧ isVowel v = true ∧
        (∀ x ∈ rest, isVowel x = false) ∧
        k = String.intercalate " " (v :: rest)) ∧
    (∀ l : List String, getPerfectRhymeKey l = none ↔ ∀ v ∈ l, isVowel v = false) ∧
    getPerfectRhymeKey ["K", "AE1", "T"] = some "AE1 T" ∧
    scorePerfect entryCAT entryBAT = 1 := by
  refine ⟨?_, getPerfectRhymeKey_eq_some_iff, getPerfectRhymeKey_eq_none_iff,
    by with_unfolding_all decide, by with_unfolding_all decide⟩
  intro c t
  cases hc : getPerfectRhymeKey c.p with
  | none =>
    have h0 : scorePerfect c t = 0 := by simp [scorePerfect, hc]
    refine ⟨Or.inr h0, ?_⟩
    constructor
    · intro h1; rw [h0] at h1; exact absurd h1 (by norm_num)
    · rintro ⟨⟨v, hvmem, hv⟩, -, -⟩
      have := (getPerfectRhymeKey_eq_none_iff c.p).mp hc v hvmem
      simp [hv] at this
  | some ck =>
    cases ht : getPerfectRhymeKey t.p with
    | none =>
      have h0 : scorePerfect c t = 0 := by simp [scorePerfect, hc, ht]
      refine ⟨Or.inr h0, ?_⟩
      constructor
      · intro h1; rw [h0] at h1; exact absurd h1 (by norm_num)
      · rintro ⟨-, ⟨v, hvmem, hv⟩, -⟩
        have := (getPerfectRhymeKey_eq_none_iff t.p).mp ht v hvmem
        simp [hv] at this
    | some tk =>
      have hsp : scorePerfect c t = if ck = tk then 1 else 0 := by
        simp [scorePerfect, hc, ht]
      by_cases he : ck = tk
      · subst he
        rw [hsp, if_pos rfl]
        refine ⟨Or.inl rfl, ?_⟩
        constructor
        · intro _
          exact ⟨exists_vowel_of_key_some c.p ck hc,
            exists_vowel_of_key_some t.p ck ht, rfl⟩
        · intro _; rfl
      · rw [hsp, if_neg he]
        refine ⟨Or.inr rfl, ?_⟩
        constructor
        · intro h1; exact absurd h1 (by norm_num)
        · rintro ⟨-, -, hkeq⟩
          exact absurd (Option.some.inj hkeq) he

theorem nearMatchesFrom_eq_specCount (cp tp : List String) (checkLen : Nat)
    (hc : checkLen ≤ cp.length) (ht : checkLen ≤ tp.length) (i : Nat) (hi : 1 ≤ i) :
    nearMatchesFrom cp tp checkLen i =
      specNearMatchCount ((cp.reverse.drop (i - 1)).take (checkLen + 1 - i))
        ((tp.reverse.drop (i - 1)).take (checkLen + 1 - i)) := by
  rw [nearMatchesFrom]
  by_cases h : i ≤ checkLen
  · rw [if_pos h]
    have hlc : i - 1 < cp.reverse.length := by simp; omega
    have hlt : i - 1 < tp.reverse.length := by simp; omega
    have hgc : cp.reverse.drop (i - 1) =
        cp.getD (cp.length - i) "" :: cp.reverse.drop i := by
      have hix : cp.length - 1 - (i - 1) = cp.length - i := by omega
      have hii : i - 1 + 1 = i := by omega
      have hlt2 : cp.length - i < cp.length := by omega
      rw [List.drop_eq_getElem_cons hlc, List.getElem_reverse, hii,
        List.getD_eq_getElem?_getD, List.getElem?_eq_getElem hlt2]
      simp only [Option.getD_some, hix]
    have hgt : tp.reverse.drop (i - 1) =
        tp.getD (tp.length - i) "" :: tp.reverse.drop i := by
      have hix : tp.length - 1 - (i - 1) = tp.length - i := by omega
      have hii : i - 1 + 1 = i := by omega
      have hlt2 : tp.length - i < tp.length := by omega
      rw [List.drop_eq_getElem_cons hlt, List.getElem_reverse, hii,
        List.getD_eq_getElem?_getD, List.getElem?_eq_getElem hlt2]
      simp only [Option.getD_some, hix]
    rw [hgc, hgt]
    have hck : checkLen + 1 - i = (checkLen - i) + 1 := by omega
    rw [hck, List.take_succ_cons, List.take_succ_cons, specNearMatchCount]
    by_cases heq : cp.getD (cp.length - i) "" = tp.getD (tp.length - i) ""
    · rw [if_pos heq, if_pos heq]
      have hrec := nearMatchesFrom_eq_specCount cp tp checkLen hc ht (i + 1) (by omega)
      rw [hrec]
      have h1 : i + 1 - 1 = i := by omega
      have h2 : checkLen + 1 - (i + 1) = checkLen - i := by omega
      rw [h1, h2]
    · rw [if_neg heq, if_neg heq]
  · rw [if_neg h]
    have h0 : checkLen + 1 - i = 0 := by omega
    rw [h0]
    simp [specNearMatchCount]
termination_by checkLen + 1 - i
decreasing_by omega

/-- C5: `scoreNear` compares the two phoneme sequences from the last
position backward over `checkLen = min n (shorter length)` positions,
counts consecutive equal positions stopping at the first mismatch, and
divides that count by `n` (not by `checkLen`); the score is 0 when
`checkLen` is 0, and `scoreNear CAT DOG = 0`. -/
theorem c5_scoreNear_suffix_count :
    (∀ (c t : LexiconEntry) (n : Nat),
      scoreNear c t n =
        (specNearMatchCount
          (c.p.reverse.take (min n (min c.p.length t.p.length)))
          (t.p.reverse.take (min n (min c.p.length t.p.length))) : ℚ) / (n : ℚ)) ∧
    (∀ (c t : LexiconEntry) (n : Nat),
      min n (min c.p.length t.p.length) = 0 → scoreNear c t n = 0) ∧
    scoreNear entryCAT entryDOG 3 = 0 := by
  have hmain : ∀ (c t : LexiconEntry) (n : Nat),
      scoreNear c t n =
        (specNearMatchCount
          (c.p.reverse.take (min n (min c.p.length t.p.length)))
          (t.p.reverse.take (min n (min c.p.length t.p.length))) : ℚ) / (n : ℚ) := by
    intro c t n
    unfold scoreNear
    by_cases h0 : min n (min c.p.length t.p.length) = 0
    · rw [if_pos h0, h0]
      simp [specNearMatchCount]
    · rw [if_neg h0]
      have hc : min n (min c.p.length t.p.length) ≤ c.p.length := by omega
      have ht : min n (min c.p.length t.p.length) ≤ t.p.length := by omega
      have := nearMatchesFrom_eq_specCount c.p t.p
        (min n (min c.p.length t.p.length)) hc ht 1 (by omega)
      rw [this]
      simp
  refine ⟨hmain, ?_, by with_unfolding_all decide⟩
  intro c t n h0
  rw [hmain c t n, h0]
  simp [specNearMatchCount]

/-- Witness for C5's zero-checkLen clause at a concrete input. -/
theorem c5_scoreNear_suffix_count_witness :
    min 0 (min entryCAT.p.length entryCAT.p.length) = 0 ∧
      scoreNear entryCAT entryCAT 0 = 0 :=
  ⟨by decide, c5_scoreNear_suffix_count.2.1 entryCAT entryCAT 0 (by decide)⟩

theorem levD_zero_left (sd td : List Char) (j : Nat) : levD sd td 0 j = j := by
  cases j <;> rw [levD]

theorem levD_self (sd : List Char) : ∀ i, levD sd sd i i = 0 := by
  intro i
  induction i with
  | zero => rw [levD]
  | succ i ih => rw [levD, if_pos rfl, ih]; omega

theorem levD_le_max (sd td : List Char) : ∀ i j, levD sd td i j ≤ max i j
  | _, 0 => by rw [levD]; omega
  | 0, _ + 1 => by rw [levD]; omega
  | i + 1, j + 1 => by
    rw [levD]
    have h3 := levD_le_max sd td i j
    have h4 : (if sd.getD i ' ' = td.getD j ' ' then 0 else 1) ≤ 1 := by
      split <;> omega
    omega
termination_by i j => (i, j)

theorem rowStep_spec (sd td : List Char) (i : Nat) : ∀ j, j ≤ td.length →
    rowStep (sd.getD i ' ') (levD sd td (i + 1) j) (td.drop j)
      ((List.range' j (td.length + 1 - j)).map (fun x => levD sd td i x)) =
    (List.range' (j + 1) (td.length - j)).map (fun x => levD sd td (i + 1) x) := by
  intro j hj
  rcases Nat.lt_or_ge j td.length with hlt | hge
  · have hdrop : td.drop j = td.getD j ' ' :: td.drop (j + 1) := by
      rw [List.drop_eq_getElem_cons hlt, List.getD_eq_getElem?_getD,
        List.getElem?_eq_getElem hlt]
      rfl
    have hn1 : td.length + 1 - j = td.length - (j + 1) + 1 + 1 := by omega
    have hn2 : td.length - j = td.length - (j + 1) + 1 := by omega
    rw [hdrop, hn1, hn2]
    simp only [List.range'_succ, List.map_cons]
    rw [rowStep]
    simp only [List.headD_cons]
    have hc : min (min (levD sd td (i + 1) j + 1) (levD sd td i (j + 1) + 1))
        (levD sd td i j + if sd.getD i ' ' = td.getD j ' ' then 0 else 1)
        = levD sd td (i + 1) (j + 1) := by
      conv_rhs => rw [levD]
      omega
    rw [hc]
    have hrec := rowStep_spec sd td i (j + 1) (by omega)
    have hn3 : td.length + 1 - (j + 1) = td.length - (j + 1) + 1 := by omega
    rw [hn3, List.range'_succ, List.map_cons] at hrec
    rw [hrec]
  · have hjl : j = td.length := le_antisymm hj hge
    subst hjl
    have h1 : td.length + 1 - td.length = 1 := by omega
    have h2 : td.length - td.length = 0 := by omega
    rw [h1, h2, List.drop_length]
    rw [List.range'_succ, List.map_cons]
    rw [rowStep]
    simp [List.range']
termination_by j => td.length - j
decreasing_by omega

theorem levLoop_spec (sd td : List Char) (n : Nat) :
    (List.range n).foldl
      (fun v0 i => (i + 1) :: rowStep (sd.getD i ' ') (i + 1) td v0)
      (List.range (td.length + 1))
    = (List.range (td.length + 1)).map (fun x => levD sd td n x) := by
  induction n with
  | zero =>
    simp only [List.range_zero, List.foldl_nil]
    have hcongr : (List.range (td.length + 1)).map (fun x => levD sd td 0 x)
        = (List.range (td.length + 1)).map id :=
      List.map_congr_left (fun a _ => levD_zero_left sd td a)
    rw [hcongr, List.map_id]
  | succ n ih =>
    have hr : List.range (n + 1) = List.range n ++ [n] := List.range_succ n
    rw [hr, List.foldl_append, List.foldl_cons, List.foldl_nil, ih]
    have e1 : levD sd td (n + 1) 0 = n + 1 := by rw [levD]
    have h0 := rowStep_spec sd td n 0 (Nat.zero_le _)
    rw [e1, List.drop_zero, Nat.sub_zero, Nat.sub_zero, ← List.range_eq_range'] at h0
    rw [h0]
    conv_rhs => rw [List.range_eq_range', List.range'_succ]
    simp only [List.map_cons, e1]

theorem levenshtein_eq_levD (s t : String) :
    levenshtein s t = levD s.data t.data s.data.length t.data.length := by
  unfold levenshtein
  by_cases hst : s = t
  · rw [if_pos hst]
    subst hst
    exact (levD_self s.data s.data.length).symm
  · rw [if_neg hst]
    by_cases h0 : s.data.length = 0
    · rw [if_pos h0, h0, levD_zero_left]
    · rw [if_neg h0]
      by_cases h1 : t.data.length = 0
      · rw [if_pos h1, h1]
        rw [levD]
      · rw [if_neg h1]
        rw [levLoop_spec]
        rw [List.getD_eq_getElem?_getD, List.getElem?_map]
        have hm : t.data.length < t.data.length + 1 := by omega
        rw [List.getElem?_range hm]
        rfl

/-- C7: `scoreStress` equals 1 minus the classic Levenshtein distance
between the two stress patterns divided by the longer length (the
`max 0` clamp in the source is redundant because the distance never
exceeds the longer length), and 0 when both stress patterns are empty;
and the two-row dynamic-programming `levenshtein` equals the classic
recursive Levenshtein definition `levD` on all string pairs. -/
theorem c7_scoreStress_levenshtein :
    (∀ c t : LexiconEntry,
      scoreStress c t =
        if max c.s.length t.s.length = 0 then 0
        else 1 - (levD c.s.data t.s.data c.s.data.length t.s.data.length : ℚ) /
          (max c.s.length t.s.length : ℚ)) ∧
    (∀ s t : String, levenshtein s t = levD s.data t.data s.data.length t.data.length) := by
  refine ⟨?_, levenshtein_eq_levD⟩
  intro c t
  unfold scoreStress
  by_cases h0 : max c.s.length t.s.length = 0
  · rw [if_pos h0, if_pos h0]
  · rw [if_neg h0, if_neg h0, levenshtein_eq_levD, Nat.cast_max]
    have hd : levD c.s.data t.s.data c.s.data.length t.s.data.length ≤
        max c.s.length t.s.length := levD_le_max c.s.data t.s.data _ _
    have hm : (0 : ℚ) < (max c.s.length t.s.length : ℚ) := by
      exact_mod_cast Nat.pos_of_ne_zero h0
    have hdiv : (levD c.s.data t.s.data c.s.data.length t.s.data.length : ℚ) /
        (max c.s.length t.s.length : ℚ) ≤ 1 := by
      rw [div_le_one hm]
      exact_mod_cast hd
    have hnn : (0 : ℚ) ≤ 1 - (levD c.s.data t.s.data c.s.data.length t.s.data.length : ℚ) /
        (max c.s.length t.s.length : ℚ) := by linarith
    exact max_eq_right hnn

theorem foldl_add_map_sum {α : Type} (f : α → ℚ) (l : List α) (a : ℚ) :
    l.foldl (fun s x => s + f x) a = a + (l.map f).sum := by
  induction l generalizing a with
  | nil => simp
  | cons x xs ih => simp [ih, add_assoc]

theorem scoreStep_schemeVal (ce : LexiconEntry) (targets : List LexiconEntry)
    (acc : ScoreAcc) (sch : SchemeConfig) :
    scoreStep ce targets acc sch =
      { schemeScores := recordSet acc.schemeScores sch.id (specSchemeMean ce targets sch),
        totalWeightedScore :=
          acc.totalWeightedScore + specSchemeMean ce targets sch * sch.weight,
        totalWeight := acc.totalWeight + sch.weight } := by
  unfold scoreStep specSchemeMean
  rw [foldl_add_map_sum, zero_add]
  by_cases hl : 0 < targets.length
  · simp only [if_pos hl]
  · simp only [if_neg hl]
    have h0 : targets.length = 0 := by omega
    have he : targets = [] := List.length_eq_zero.mp h0
    subst he
    norm_num

theorem scoreAcc_foldl_spec (ce : LexiconEntry) (targets : List LexiconEntry) :
    ∀ (schemes : List SchemeConfig) (acc : ScoreAcc),
      (schemes.foldl (scoreStep ce targets) acc).totalWeightedScore =
        acc.totalWeightedScore +
          (schemes.map (fun sch => specSchemeMean ce targets sch * sch.weight)).sum ∧
      (schemes.foldl (scoreStep ce targets) acc).totalWeight =
        acc.totalWeight + (schemes.map (fun sch => sch.weight)).sum := by
  intro schemes
  induction schemes with
  | nil => intro acc; simp
  | cons sch rest ih =>
    intro acc
    rw [List.foldl_cons, scoreStep_schemeVal]
    obtain ⟨h1, h2⟩ := ih _
    constructor
    · rw [h1]; simp [add_assoc]
    · rw [h2]; simp [add_assoc]

/-- C3: for a non-empty target list and non-negative scheme weights,
`scoreCandidate`'s totalScore is the weighted mean over schemes of the
arithmetic mean over targets of the per-target score — the sum of
`mean * weight` divided by the sum of the weights — and is 0 when the
weights sum to 0; a scheme id other than perfect/near/stress has
per-target score 0 (while its weight still enters the sums). -/
theorem c3_scoreCandidate_weighted_mean :
    (∀ (w : String) (ce : LexiconEntry) (targets : List LexiconEntry)
        (schemes : List SchemeConfig),
      targets ≠ [] → (∀ sch ∈ schemes, 0 ≤ sch.weight) →
      (scoreCandidate w ce targets schemes).totalScore =
        if (schemes.map (fun sch => sch.weight)).sum = 0 then 0
        else
          (schemes.map (fun sch => specSchemeMean ce targets sch * sch.weight)).sum /
            (schemes.map (fun sch => sch.weight)).sum) ∧
    (∀ (id : String) (ce t : LexiconEntry),
      id ≠ "perfect" → id ≠ "near" → id ≠ "stress" →
      perSchemeTargetScore id ce t = 0) := by
  constructor
  · intro w ce targets schemes _ hw
    unfold scoreCandidate
    obtain ⟨h1, h2⟩ := scoreAcc_foldl_spec ce targets schemes ⟨[], 0, 0⟩
    simp only [h1, h2, zero_add]
    have hwsum : 0 ≤ (schemes.map (fun sch => sch.weight)).sum := by
      apply List.sum_nonneg
      intro x hx
      obtain ⟨sch, hmem, rfl⟩ := List.mem_map.mp hx
      exact hw sch hmem
    by_cases hz : (schemes.map (fun sch => sch.weight)).sum = 0
    · rw [if_pos hz]
      have : ¬ 0 < (schemes.map (fun sch => sch.weight)).sum := by rw [hz]; norm_num
      rw [if_neg this]
    · rw [if_neg hz]
      have : 0 < (schemes.map (fun sch => sch.weight)).sum :=
        lt_of_le_of_ne hwsum (Ne.symm hz)
      rw [if_pos this]
  · intro id ce t h1 h2 h3
    unfold perSchemeTargetScore
    rw [if_neg h1, if_neg h2, if_neg h3]

/-- Witness for C3 at a concrete input, exercising the unrecognized
scheme id "vibe". -/
theorem c3_scoreCandidate_weighted_mean_witness :
    (([entryCAT] : List LexiconEntry) ≠ [] ∧
      (∀ sch ∈ [SchemeConfig.mk "perfect" 1, SchemeConfig.mk "vibe" 2],
        (0 : ℚ) ≤ sch.weight)) ∧
    (scoreCandidate "X" entryBAT [entryCAT]
        [SchemeConfig.mk "perfect" 1, SchemeConfig.mk "vibe" 2]).totalScore =
      if (([SchemeConfig.mk "perfect" 1, SchemeConfig.mk "vibe" 2].map
          (fun sch => sch.weight)).sum : ℚ) = 0 then 0
      else
        ([SchemeConfig.mk "perfect" 1, SchemeConfig.mk "vibe" 2].map
          (fun sch => specSchemeMean entryBAT [entryCAT] sch * sch.weight)).sum /
          ([SchemeConfig.mk "perfect" 1, SchemeConfig.mk "vibe" 2].map
            (fun sch => sch.weight)).sum := by
  refine ⟨⟨by simp, ?_⟩, ?_⟩
  · intro sch hmem
    rcases List.mem_cons.mp hmem with rfl | hmem'
    · norm_num
    · rcases List.mem_cons.mp hmem' with rfl | h
      · norm_num
      · simp at h
  · exact c3_scoreCandidate_weighted_mean.1 "X" entryBAT [entryCAT]
      [SchemeConfig.mk "perfect" 1, SchemeConfig.mk "vibe" 2]
      (by simp)
      (by
        intro sch hmem
        rcases List.mem_cons.mp hmem with rfl | hmem'
        · norm_num
        · rcases List.mem_cons.mp hmem' with rfl | h
          · norm_num
          · simp at h)

theorem scorePerfect_bounds (c t : LexiconEntry) :
    0 ≤ scorePerfect c t ∧ scorePerfect c t ≤ 1 := by
  unfold scorePerfect
  rcases getPerfectRhymeKey c.p with - | ck <;> rcases getPerfectRhymeKey t.p with - | tk
  · norm_num
  · norm_num
  · norm_num
  · dsimp only
    split <;> norm_num

theorem nearMatchesFrom_le (cp tp : List String) (checkLen i : Nat) :
    nearMatchesFrom cp tp checkLen i ≤ checkLen + 1 - i := by
  rw [nearMatchesFrom]
  by_cases h : i ≤ checkLen
  · rw [if_pos h]
    by_cases heq : cp.getD (cp.length - i) "" = tp.getD (tp.length - i) ""
    · rw [if_pos heq]
      have := nearMatchesFrom_le cp tp checkLen (i + 1)
      omega
    · rw [if_neg heq]; omega
  · rw [if_neg h]; omega
termination_by checkLen + 1 - i
decreasing_by omega

theorem scoreNear_bounds (c t : LexiconEntry) (n : Nat) :
    0 ≤ scoreNear c t n ∧ scoreNear c t n ≤ 1 := by
  unfold scoreNear
  by_cases h0 : min n (min c.p.length t.p.length) = 0
  · rw [if_pos h0]; norm_num
  · rw [if_neg h0]
    have hcount := nearMatchesFrom_le c.p t.p (min n (min c.p.length t.p.length)) 1
    have hle : nearMatchesFrom c.p t.p (min n (min c.p.length t.p.length)) 1 ≤ n := by
      omega
    have hn : 0 < n := by omega
    have hnq : (0 : ℚ) < (n : ℚ) := by exact_mod_cast hn
    constructor
    · apply div_nonneg _ (le_of_lt hnq)
      exact_mod_cast Nat.zero_le _
    · rw [div_le_one hnq]
      exact_mod_cast hle

theorem scoreStress_bounds (c t : LexiconEntry) :
    0 ≤ scoreStress c t ∧ scoreStress c t ≤ 1 := by
  unfold scoreStress
  by_cases h0 : max c.s.length t.s.length = 0
  · rw [if_pos h0]; norm_num
  · rw [if_neg h0]
    refine ⟨le_max_left _ _, ?_⟩
    apply max_le (by norm_num)
    have hd : (0 : ℚ) ≤ (levenshtein c.s t.s : ℚ) /
        ((max c.s.length t.s.length : Nat) : ℚ) := by
      apply div_nonneg <;> positivity
    linarith

theorem perSchemeTargetScore_bounds (id : String) (c t : LexiconEntry) :
    0 ≤ perSchemeTargetScore id c t ∧ perSchemeTargetScore id c t ≤ 1 := by
  unfold perSchemeTargetScore
  split
  · exact scorePerfect_bounds c t
  · split
    · exact scoreNear_bounds c t 3
    · split
      · exact scoreStress_bounds c t
      · norm_num

theorem specSchemeMean_bounds (ce : LexiconEntry) (targets : List LexiconEntry)
    (sch : SchemeConfig) :
    0 ≤ specSchemeMean ce targets sch ∧ specSchemeMean ce targets sch ≤ 1 := by
  unfold specSchemeMean
  by_cases h0 : targets = []
  · subst h0; norm_num
  · have hlen : 0 < targets.length := List.length_pos.mpr h0
    have hlenq : (0 : ℚ) < (targets.length : ℚ) := by exact_mod_cast hlen
    have hsum0 : 0 ≤ (targets.map (fun t => perSchemeTargetScore sch.id ce t)).sum := by
      apply List.sum_nonneg
      intro x hx
      obtain ⟨t, -, rfl⟩ := List.mem_map.mp hx
      exact (perSchemeTargetScore_bounds sch.id ce t).1
    constructor
    · exact div_nonneg hsum0 (le_of_lt hlenq)
    · rw [div_le_one hlenq]
      have := List.sum_le_card_nsmul
        (targets.map (fun t => perSchemeTargetScore sch.id ce t)) 1 ?bound
      · simpa using this
      case bound =>
        intro x hx
        obtain ⟨t, -, rfl⟩ := List.mem_map.mp hx
        exact (perSchemeTargetScore_bounds sch.id ce t).2

theorem scoreCandidate_totalScore_bounds (w : String) (ce : LexiconEntry)
    (targets : List LexiconEntry) (schemes : List SchemeConfig)
    (hw : ∀ sch ∈ schemes, 0 ≤ sch.weight) :
    0 ≤ (scoreCandidate w ce targets schemes).totalScore ∧
      (scoreCandidate w ce targets schemes).totalScore ≤ 1 := by
  unfold scoreCandidate
  obtain ⟨h1, h2⟩ := scoreAcc_foldl_spec ce targets schemes ⟨[], 0, 0⟩
  simp only [h1, h2, zero_add]
  by_cases hpos : 0 < (schemes.map (fun sch => sch.weight)).sum
  · rw [if_pos hpos]
    have htws0 : 0 ≤ (schemes.map (fun sch => specSchemeMean ce targets sch * sch.weight)).sum := by
      apply List.sum_nonneg
      intro x hx
      obtain ⟨sch, hmem, rfl⟩ := List.mem_map.mp hx
      exact mul_nonneg (specSchemeMean_bounds ce targets sch).1 (hw sch hmem)
    have htws1 : (schemes.map (fun sch => specSchemeMean ce targets sch * sch.weight)).sum ≤
        (schemes.map (fun sch => sch.weight)).sum := by
      apply List.sum_le_sum
      intro sch hmem
      calc specSchemeMean ce targets sch * sch.weight
          ≤ 1 * sch.weight := by
            apply mul_le_mul_of_nonneg_right (specSchemeMean_bounds ce targets sch).2
              (hw sch hmem)
        _ = sch.weight := one_mul _
    exact ⟨div_nonneg htws0 (le_of_lt hpos), by rw [div_le_one hpos]; exact htws1⟩
  · rw [if_neg hpos]; norm_num

theorem insertCand_perm (x : Candidate) (l : List Candidate) :
    (insertCand x l).Perm (x :: l) := by
  induction l with
  | nil => exact List.Perm.refl _
  | cons y ys ih =>
    rw [insertCand]
    by_cases h : candBefore x y
    · rw [if_pos h]
    · rw [if_neg h]
      exact List.Perm.trans (List.Perm.cons y ih) (List.Perm.swap x y ys)

theorem sortCands_foldl_perm (l : List Candidate) :
    ∀ acc, (l.foldl (fun a x => insertCand x a) acc).Perm (l ++ acc) := by
  induction l with
  | nil => intro acc; simp
  | cons x xs ih =>
    intro acc
    rw [List.foldl_cons]
    have p1 := ih (insertCand x acc)
    have p2 : (xs ++ insertCand x acc).Perm (xs ++ x :: acc) :=
      List.Perm.append_left xs (insertCand_perm x acc)
    have p3 : (xs ++ x :: acc).Perm (x :: (xs ++ acc)) := List.perm_middle
    simpa using (p1.trans p2).trans p3

theorem sortCands_perm (l : List Candidate) : (sortCands l).Perm l := by
  unfold sortCands
  have := sortCands_foldl_perm l []
  simpa using this

theorem compareStep_foldl_bound (normalizedTargets : List String)
    (targetEntries : List LexiconEntry) (schemes : List SchemeConfig)
    (frequencyMap : List (String × Nat))
    (hw : ∀ sch ∈ schemes, 0 ≤ sch.weight) :
    ∀ (lexlist : List (String × LexiconEntry)) (acc : List Candidate),
      (∀ c ∈ acc, 3 / 10 ≤ c.totalScore ∧ c.totalScore ≤ 1) →
      ∀ c ∈ lexlist.foldl
        (compareStep normalizedTargets targetEntries schemes frequencyMap) acc,
        3 / 10 ≤ c.totalScore ∧ c.totalScore ≤ 1 := by
  intro lexlist
  induction lexlist with
  | nil => intro acc hacc c hc; exact hacc c hc
  | cons we rest ih =>
    intro acc hacc c hc
    rw [List.foldl_cons] at hc
    refine ih _ ?_ c hc
    intro d hd
    unfold compareStep at hd
    by_cases h1 : normalizedTargets.contains we.1
    · rw [if_pos h1] at hd; exact hacc d hd
    · rw [if_neg h1] at hd
      by_cases h2 : 3 / 10 ≤ (scoreCandidate we.1 we.2 targetEntries schemes).totalScore
      · rw [if_pos h2] at hd
        rcases List.mem_append.mp hd with hd' | hd'
        · exact hacc d hd'
        · have hd2 : d = { scoreCandidate we.1 we.2 targetEntries schemes with
            frequencyRank := some ((frequencyMap.lookup we.1).getD 999999) } := by
            simpa using hd'
          subst hd2
          refine ⟨h2, ?_⟩
          exact (scoreCandidate_totalScore_bounds we.1 we.2 targetEntries schemes hw).2
      · rw [if_neg h2] at hd; exact hacc d hd

/-- C8: with non-negative scheme weights, every candidate returned by
`compare` has totalScore at least the 0.3 noise floor and at most 1,
for any limit. -/
theorem c8_noise_floor_and_upper_bound (lex : Lexicon)
    (frequencyMap : List (String × Nat)) (req : CompareRequest)
    (hw : ∀ sch ∈ req.schemes, 0 ≤ sch.weight) :
    ∀ c ∈ (compare lex frequencyMap req).candidates,
      3 / 10 ≤ c.totalScore ∧ c.totalScore ≤ 1 := by
  intro c hc
  unfold compare at hc
  by_cases hempty : ((req.targets.map jsToUpper).filterMap
      (fun t => lex.lookup t)).isEmpty
  · rw [if_pos hempty] at hc
    simp at hc
  · rw [if_neg hempty] at hc
    simp only at hc
    have hc1 : c ∈ sortCands (lex.foldl
        (compareStep (req.targets.map jsToUpper)
          ((req.targets.map jsToUpper).filterMap (fun t => lex.lookup t))
          req.schemes frequencyMap) []) := List.mem_of_mem_take hc
    have hc2 : c ∈ lex.foldl
        (compareStep (req.targets.map jsToUpper)
          ((req.targets.map jsToUpper).filterMap (fun t => lex.lookup t))
          req.schemes frequencyMap) [] :=
      (sortCands_perm _).mem_iff.mp hc1
    exact compareStep_foldl_bound _ _ _ _ hw lex [] (by simp) c hc2

/-- Witness for C8 at a concrete request. -/
theorem c8_noise_floor_and_upper_bound_witness :
    (∀ sch ∈ [SchemeConfig.mk "perfect" 1], (0 : ℚ) ≤ sch.weight) ∧
    (∀ c ∈ (compare lexSample []
        ⟨["CAT"], [SchemeConfig.mk "perfect" 1], none⟩).candidates,
      3 / 10 ≤ c.totalScore ∧ c.totalScore ≤ 1) := by
  have hw : ∀ sch ∈ [SchemeConfig.mk "perfect" 1], (0 : ℚ) ≤ sch.weight := by
    intro sch hmem
    rcases List.mem_cons.mp hmem with rfl | h
    · norm_num
    · simp at h
  exact ⟨hw, c8_noise_floor_and_upper_bound lexSample []
    ⟨["CAT"], [SchemeConfig.mk "perfect" 1], none⟩ hw⟩

theorem candBefore_asymm (x y : Candidate) (h : candBefore x y = true) :
    candBefore y x = false := by
  simp only [candBefore] at h ⊢
  rw [show x.totalScore - y.totalScore = -(y.totalScore - x.totalScore) from by ring,
    abs_neg]
  by_cases habs : 1 / 1000 < |y.totalScore - x.totalScore|
  · rw [if_pos habs] at h ⊢
    simp only [decide_eq_true_eq] at h
    simp only [decide_eq_false_iff_not]
    intro hlt
    linarith
  · rw [if_neg habs] at h ⊢
    simp only [decide_eq_true_eq] at h
    simp only [decide_eq_false_iff_not]
    omega

theorem insertCand_chain (x : Candidate) (l : List Candidate)
    (hl : List.Chain' (fun u v => candBefore v u = false) l) :
    List.Chain' (fun u v => candBefore v u = false) (insertCand x l) := by
  induction l with
  | nil => simp [insertCand]
  | cons y ys ih =>
    rw [insertCand]
    by_cases h : candBefore x y
    · rw [if_pos h]
      exact List.Chain'.cons (candBefore_asymm x y h) hl
    · rw [if_neg h]
      have hxy : candBefore x y = false := by simpa using h
      have hys : List.Chain' (fun u v => candBefore v u = false) ys := hl.tail
      have hins := ih hys
      cases ys with
      | nil =>
        simp only [insertCand]
        exact List.chain'_pair.mpr hxy
      | cons z zs =>
        rw [insertCand] at hins ⊢
        by_cases h2 : candBefore x z
        · rw [if_pos h2] at hins ⊢
          exact List.Chain'.cons hxy (List.Chain'.cons (candBefore_asymm x z h2) hys)
        · rw [if_neg h2] at hins ⊢
          exact List.Chain'.cons ((List.chain'_cons.mp hl).1) hins

theorem sortCands_chain (l : List Candidate) :
    List.Chain' (fun u v => candBefore v u = false) (sortCands l) := by
  unfold sortCands
  suffices h : ∀ acc, List.Chain' (fun u v => candBefore v u = false) acc →
      List.Chain' (fun u v => candBefore v u = false)
        (l.foldl (fun a x => insertCand x a) acc) from h [] (by simp)
  induction l with
  | nil => intro acc hacc; simpa
  | cons x xs ih =>
    intro acc hacc
    rw [List.foldl_cons]
    exact ih _ (insertCand_chain x acc hacc)

/-- C1 (amended): in the list returned by `compare`, each adjacent pair
of candidates is ordered by totalScore descending when the two scores
differ by more than 0.001, and otherwise by effective frequency rank
ascending, where the effective rank (`rankVal`) maps both a missing
rank and a known rank of 0 to the sentinel 999999 (the comparator's
`|| 999999` treats rank 0 as falsy). -/
theorem c1_sort_order_adjacent (lex : Lexicon)
    (frequencyMap : List (String × Nat)) (req : CompareRequest) :
    List.Chain'
      (fun u v =>
        if 1 / 1000 < |u.totalScore - v.totalScore| then v.totalScore ≤ u.totalScore
        else rankVal u ≤ rankVal v)
      (compare lex frequencyMap req).candidates := by
  unfold compare
  by_cases hempty : ((req.targets.map jsToUpper).filterMap
      (fun t => lex.lookup t)).isEmpty
  · rw [if_pos hempty]; simp
  · rw [if_neg hempty]
    simp only
    refine List.Chain'.imp ?_ ((sortCands_chain _).take _)
    intro u v huv
    unfold candBefore at huv
    by_cases habs : 1 / 1000 < |u.totalScore - v.totalScore|
    · rw [if_pos habs]
      rw [if_pos habs] at huv
      simp only [decide_eq_false_iff_not] at huv
      linarith
    · rw [if_neg habs]
      rw [if_neg habs] at huv
      simp only [decide_eq_false_iff_not] at huv
      omega

/-- C1 counterexample: with frequency list giving HAT rank 0 and BAT no
rank, and both tied at totalScore 1, the returned order is
[BAT, HAT] — the candidate with known frequency rank 0 does NOT sort
before the tied candidate with no known frequency, because the
comparator's `|| 999999` default treats rank 0 as absent. -/
theorem c1_counterexample :
    ((compare lexSample [("HAT", 0)]
        ⟨["CAT"], [SchemeConfig.mk "perfect" 1], none⟩).candidates.map
      (fun c => c.word) = ["BAT", "HAT"]) ∧
    ((compare lexSample [("HAT", 0)]
        ⟨["CAT"], [SchemeConfig.mk "perfect" 1], none⟩).candidates.map
      (fun c => c.frequencyRank) = [some 999999, some 0]) ∧
    ((compare lexSample [("HAT", 0)]
        ⟨["CAT"], [SchemeConfig.mk "perfect" 1], none⟩).candidates.map
      (fun c => c.totalScore) = [1, 1]) :=
  ⟨by with_unfolding_all decide, by with_unfolding_all rfl,
    by with_unfolding_all decide⟩

/-- C10: a request with `limit = 0` is treated exactly as a request with
no limit (the `req.limit || 50` default applies, since 0 is falsy), and
the returned list never has more than `limit` candidates when the limit
is a positive integer, and never more than 50 otherwise. -/
theorem c10_limit_zero_default_and_length_bound :
    (∀ (lex : Lexicon) (freq : List (String × Nat)) (ts : List String)
        (ss : List SchemeConfig),
      compare lex freq ⟨ts, ss, some 0⟩ = compare lex freq ⟨ts, ss, none⟩) ∧
    (∀ (lex : Lexicon) (freq : List (String × Nat)) (req : CompareRequest),
      (compare lex freq req).candidates.length ≤
        match req.limit with
        | some l => if 0 < l then l else 50
        | none => 50) := by
  constructor
  · intro lex freq ts ss
    rfl
  · intro lex freq req
    unfold compare
    by_cases hempty : ((req.targets.map jsToUpper).filterMap
        (fun t => lex.lookup t)).isEmpty
    · rw [if_pos hempty]
      rcases req.limit with - | l
      · simp
      · simp only [List.length_nil]
        split <;> omega
    · rw [if_neg hempty]
      simp only
      rcases hre : req.limit with - | l
      · simp [List.length_take]
      · by_cases hl : l = 0
        · subst hl
          simp [List.length_take]
        · simp only [if_neg hl, List.length_take]
          have : 0 < l := Nat.pos_of_ne_zero hl
          rw [if_pos this]
          omega

theorem scoreCandidate_single (w : String) (e t : LexiconEntry) (id : String) :
    (scoreCandidate w e [t] [⟨id, 1⟩]).totalScore = perSchemeTargetScore id e t := by
  unfold scoreCandidate
  simp only [List.foldl_cons, List.foldl_nil, scoreStep_schemeVal]
  unfold specSchemeMean
  norm_num

theorem totalScore_single_perfect (w : String) (ea eb : LexiconEntry) :
    (scoreCandidate w ea [eb] [⟨"perfect", 1⟩]).totalScore = scorePerfect ea eb := by
  rw [scoreCandidate_single]
  unfold perSchemeTargetScore
  rw [if_pos rfl]

theorem totalScore_single_near (w : String) (ea eb : LexiconEntry) :
    (scoreCandidate w ea [eb] [⟨"near", 1⟩]).totalScore = scoreNear ea eb 3 := by
  rw [scoreCandidate_single]
  unfold perSchemeTargetScore
  rw [if_neg (by decide), if_pos rfl]

/-- C4: `checkRhyme a b` is true iff the canonicalized words are equal,
or both resolve to entries (direct lookup, else — when the word ends in
"IN" — lookup with that suffix replaced by "ING", the only fallback) and
at least one of: `scorePerfect` is exactly 1, `scoreNear ≥ 0.6`, or the
first phoneme of each entry containing a '1' or '2' digit exists on both
sides and is exactly equal, stress digit included. -/
theorem c4_checkRhyme_characterization (lex : Lexicon) :
    (∀ a b : String,
      checkRhyme lex a b = true ↔
        (canon a = canon b ∨
          ∃ ea eb, resolveWord lex (canon a) = some ea ∧
            resolveWord lex (canon b) = some eb ∧
            (scorePerfect ea eb = 1 ∨ 3 / 5 ≤ scoreNear ea eb 3 ∨
              ∃ v, getStressedVowel ea.p = some v ∧
                getStressedVowel eb.p = some v))) ∧
    (∀ (w : String) (e : LexiconEntry),
      resolveWord lex w = some e ↔
        (lex.lookup w = some e ∨
          (lex.lookup w = none ∧ strEndsWith w "IN" = true ∧
            lex.lookup (String.mk (w.data.take (w.data.length - 2)) ++ "ING") =
              some e))) := by
  constructor
  · intro a b
    unfold checkRhyme
    by_cases hab : canon a = canon b
    · simp [hab]
    · rw [if_neg hab]
      cases ra : resolveWord lex (canon a) with
      | none =>
        cases rb : resolveWord lex (canon b) with
        | none => simp [hab]
        | some eb => simp [hab]
      | some ea =>
        cases rb : resolveWord lex (canon b) with
        | none => simp [hab]
        | some eb =>
          dsimp only
          rw [totalScore_single_perfect, totalScore_single_near]
          by_cases h1 : scorePerfect ea eb = 1
          · rw [if_pos h1]
            simp only [true_iff]
            exact Or.inr ⟨ea, eb, rfl, rfl, Or.inl h1⟩
          · rw [if_neg h1]
            by_cases h2 : 3 / 5 ≤ scoreNear ea eb 3
            · rw [if_pos h2]
              simp only [true_iff]
              exact Or.inr ⟨ea, eb, rfl, rfl, Or.inr (Or.inl h2)⟩
            · rw [if_neg h2]
              cases va : getStressedVowel ea.p with
              | none => simp [hab, h1, h2, va]
              | some vA =>
                cases vb : getStressedVowel eb.p with
                | none => simp [hab, h1, h2, va, vb]
                | some vB => simp [hab, h1, h2, va, vb]
  · intro w e
    unfold resolveWord
    cases hl : lex.lookup w with
    | some e' => simp
    | none =>
      by_cases hend : strEndsWith w "IN"
      · rw [if_pos hend]
        simp [hend]
      · rw [if_neg hend]
        simp [hend]

theorem lookup_recordSet_self {β : Type} (m : List (String × β)) (k : String) (v : β) :
    (recordSet m k v).lookup k = some v := by
  induction m with
  | nil => simp [recordSet, List.lookup]
  | cons p rest ih =>
    rcases p with ⟨k', v'⟩
    rw [recordSet]
    by_cases h : k' = k
    · rw [if_pos h]
      subst h
      simp [List.lookup]
    · rw [if_neg h]
      have hbe : (k == k') = false := by
        simp only [beq_eq_false_iff_ne, ne_eq]
        exact fun he => h he.symm
      simp [List.lookup, hbe, ih]

theorem lookup_recordSet_ne {β : Type} (m : List (String × β)) (k k' : String)
    (v : β) (h : k' ≠ k) :
    (recordSet m k v).lookup k' = m.lookup k' := by
  induction m with
  | nil =>
    have hbe : (k' == k) = false := by simpa using h
    simp [recordSet, List.lookup, hbe]
  | cons p rest ih =>
    rcases p with ⟨k0, v0⟩
    rw [recordSet]
    by_cases h0 : k0 = k
    · rw [if_pos h0]
      subst h0
      have hbe : (k' == k0) = false := by simpa using h
      simp [List.lookup, hbe]
    · rw [if_neg h0]
      simp [List.lookup, ih]

theorem processPair_skip (st : BuildState) (raw : String) (ph : List String)
    (hvar : hasVariantSuffix raw = true)
    (hpresent : (st.lexicon.lookup (stripVariantSuffix raw)).isSome = true) :
    processPair st raw ph = st := by
  unfold processPair
  rw [if_pos (by rw [hvar, hpresent]; rfl)]

theorem processPair_lookup_other (st : BuildState) (raw : String)
    (ph : List String) (w : String) (hne : stripVariantSuffix raw ≠ w) :
    (processPair st raw ph).lexicon.lookup w = st.lexicon.lookup w := by
  unfold processPair
  by_cases hskip : (hasVariantSuffix raw &&
      (st.lexicon.lookup (stripVariantSuffix raw)).isSome) = true
  · rw [if_pos hskip]
  · rw [if_neg hskip]
    dsimp only
    exact lookup_recordSet_ne _ _ _ _ (Ne.symm hne)

theorem processPair_insert_lookup (st : BuildState) (raw : String)
    (ph : List String)
    (hnoskip : ¬(hasVariantSuffix raw &&
      (st.lexicon.lookup (stripVariantSuffix raw)).isSome) = true) :
    (processPair st raw ph).lexicon.lookup (stripVariantSuffix raw) =
      some ⟨ph, getStress ph, (getStress ph).length⟩ := by
  unfold processPair
  rw [if_neg hnoskip]
  dsimp only
  exact lookup_recordSet_self _ _ _

theorem buildFold_untouched (w : String) :
    ∀ (pre : List (String × List String)) (st : BuildState),
      (∀ pr ∈ pre, stripVariantSuffix pr.1 ≠ w) →
      ((pre.foldl (fun s pr => processPair s pr.1 pr.2) st).lexicon.lookup w) =
        st.lexicon.lookup w := by
  intro pre
  induction pre with
  | nil => intro st _; rfl
  | cons pr rest ih =>
    intro st hall
    rw [List.foldl_cons, ih _ (fun q hq => hall q (List.mem_cons_of_mem _ hq))]
    exact processPair_lookup_other st pr.1 pr.2 w (hall pr (List.mem_cons_self _ _))

theorem buildFold_first_wins (w : String) (e : LexiconEntry) :
    ∀ (post : List (String × List String)) (st : BuildState),
      st.lexicon.lookup w = some e →
      (∀ pr ∈ post, stripVariantSuffix pr.1 = w → hasVariantSuffix pr.1 = true) →
      ((post.foldl (fun s pr => processPair s pr.1 pr.2) st).lexicon.lookup w) =
        some e := by
  intro post
  induction post with
  | nil => intro st h _; exact h
  | cons pr rest ih =>
    intro st h hall
    rw [List.foldl_cons]
    refine ih _ ?_ (fun q hq hk => hall q (List.mem_cons_of_mem _ hq) hk)
    by_cases hkey : stripVariantSuffix pr.1 = w
    · have hvar : hasVariantSuffix pr.1 = true :=
        hall pr (List.mem_cons_self _ _) hkey
      have hpresent : (st.lexicon.lookup (stripVariantSuffix pr.1)).isSome = true := by
        rw [hkey, h]; rfl
      rw [processPair_skip st pr.1 pr.2 hvar hpresent]
      exact h
    · rw [processPair_lookup_other st pr.1 pr.2 w hkey]
      exact h

/-- C2 (amended): the builder skips a later pair only when that pair is
itself a variant (a parenthesized numeric suffix) whose orthographic key
already has a Lexicon entry — a skipped pair changes nothing at all; a
later plain-form pair for an existing key is NOT skipped (it overwrites
the entry and contributes to the indices).  Consequently the Lexicon
maps a word to the first pronunciation encountered provided every later
pair for that word is a variant. -/
theorem c2_first_pronunciation_wins_for_variants :
    (∀ (st : BuildState) (raw : String) (ph : List String),
      hasVariantSuffix raw = true →
      (st.lexicon.lookup (stripVariantSuffix raw)).isSome = true →
      processPair st raw ph = st) ∧
    (∀ (pre post : List (String × List String)) (rawFirst : String)
        (phFirst : List String) (w : String),
      stripVariantSuffix rawFirst = w →
      (∀ pr ∈ pre, stripVariantSuffix pr.1 ≠ w) →
      (∀ pr ∈ post, stripVariantSuffix pr.1 = w → hasVariantSuffix pr.1 = true) →
      (build (pre ++ (rawFirst, phFirst) :: post)).lexicon.lookup w =
        some ⟨phFirst, getStress phFirst, (getStress phFirst).length⟩) := by
  refine ⟨processPair_skip, ?_⟩
  intro pre post rawFirst phFirst w hkey hpre hpost
  unfold build
  rw [List.foldl_append, List.foldl_cons]
  have hinit : ((pre.foldl (fun s pr => processPair s pr.1 pr.2)
      ⟨[], [], []⟩).lexicon.lookup w) = none := by
    rw [buildFold_untouched w pre _ hpre]; rfl
  have hnoskip : ¬(hasVariantSuffix rawFirst &&
      ((pre.foldl (fun s pr => processPair s pr.1 pr.2)
        ⟨[], [], []⟩).lexicon.lookup (stripVariantSuffix rawFirst)).isSome) = true := by
    rw [hkey, hinit]
    simp
  have hins := processPair_insert_lookup _ rawFirst phFirst hnoskip
  rw [hkey] at hins
  exact buildFold_first_wins w _ post _ hins hpost

/-- C2 counterexample: a later plain-form pair for an existing key is
not skipped — it overwrites the Lexicon entry (so the word maps to the
SECOND pronunciation) and contributes to the perfect index. -/
theorem c2_counterexample :
    (build [("A", ["AH0"]), ("A", ["EY1"])]).lexicon =
      [("A", ⟨["EY1"], "1", 1⟩)] ∧
    (build [("A", ["AH0"]), ("A", ["EY1"])]).perfectIndex =
      [("AH0", ["A"]), ("EY1", ["A"])] ∧
    (⟨["EY1"], "1", 1⟩ : LexiconEntry) ≠ ⟨["AH0"], "0", 1⟩ := by
  refine ⟨by with_unfolding_all decide, by with_unfolding_all decide,
    by with_unfolding_all decide⟩

/-- Witness for C2 (amended) at a concrete input: CMUdict-style input
where the variant comes after the base form. -/
theorem c2_first_pronunciation_wins_for_variants_witness :
    (stripVariantSuffix "A" = "A" ∧
      (∀ pr ∈ ([] : List (String × List String)), stripVariantSuffix pr.1 ≠ "A") ∧
      (∀ pr ∈ [("A(1)", ["EY1"])], stripVariantSuffix pr.1 = "A" →
        hasVariantSuffix pr.1 = true)) ∧
    (build ([] ++ ("A", ["AH0"]) :: [("A(1)", ["EY1"])])).lexicon.lookup "A" =
      some ⟨["AH0"], getStress ["AH0"], (getStress ["AH0"]).length⟩ := by
  refine ⟨⟨by with_unfolding_all decide, by simp, ?_⟩, ?_⟩
  · intro pr hpr hstrip
    rcases List.mem_cons.mp hpr with rfl | h
    · with_unfolding_all decide
    · simp at h
  · exact c2_first_pronunciation_wins_for_variants.2 [] [("A(1)", ["EY1"])]
      "A" ["AH0"] "A" (by with_unfolding_all decide) (by simp)
      (fun pr hpr _ => by
        rcases List.mem_cons.mp hpr with rfl | h
        · with_unfolding_all decide
        · simp at h)

theorem scoreCandidate_replicate (w : String) (ce e : LexiconEntry)
    (k : Nat) (hk : 0 < k) (schemes : List SchemeConfig) :
    scoreCandidate w ce (List.replicate k e) schemes =
      scoreCandidate w ce [e] schemes := by
  unfold scoreCandidate
  suffices hstep : scoreStep ce (List.replicate k e) = scoreStep ce [e] by
    rw [hstep]
  funext acc sch
  rw [scoreStep_schemeVal, scoreStep_schemeVal]
  have hmean : specSchemeMean ce (List.replicate k e) sch =
      specSchemeMean ce [e] sch := by
    unfold specSchemeMean
    rw [List.map_replicate, List.sum_replicate, List.length_replicate]
    have hkq : (k : ℚ) ≠ 0 := Nat.cast_ne_zero.mpr (by omega)
    simp only [nsmul_eq_mul, List.map_cons, List.map_nil, List.sum_cons,
      List.sum_nil, add_zero, List.length_cons, List.length_nil]
    push_cast
    field_simp
  rw [hmean]

theorem contains_all_eq (l : List String) (W : String) (hne : l ≠ [])
    (hall : ∀ x ∈ l, x = W) (y : String) : l.contains y = (y == W) := by
  induction l with
  | nil => exact absurd rfl hne
  | cons x xs ih =>
    have hx : x = W := hall x (List.mem_cons_self _ _)
    subst hx
    cases xs with
    | nil => by_cases hyx : y = x <;> simp [hyx]
    | cons z zs =>
      rw [List.contains_cons, ih (by simp)
        (fun q hq => hall q (List.mem_cons_of_mem _ hq))]
      cases y == x <;> simp

theorem filterMap_const_eq (l : List String) (W : String)
    (hall : ∀ x ∈ l, x = W) (f : String → Option LexiconEntry) :
    l.filterMap f =
      match f W with
      | none => []
      | some e => List.replicate l.length e := by
  induction l with
  | nil => cases f W <;> simp
  | cons x xs ih =>
    have hx : x = W := hall x (List.mem_cons_self _ _)
    subst hx
    rw [List.filterMap_cons]
    have ihx := ih (fun q hq => hall q (List.mem_cons_of_mem _ hq))
    cases hf : f x with
    | none => rw [ihx]; rw [hf]
    | some e =>
      rw [ihx, hf]
      rfl

/-- C9 (amended): when every target in the request canonicalizes to the
same word, duplicate targets change nothing — `compare` returns exactly
the same response as for a single occurrence of that word.  (With a
second distinct target present this fails, because the per-scheme score
is the arithmetic mean over target occurrences and a duplicate is
counted twice; see the counterexample.) -/
theorem c9_duplicate_single_target (lex : Lexicon)
    (freq : List (String × Nat)) (schemes : List SchemeConfig)
    (limit : Option Nat) (ts : List String) (w : String) (hne : ts ≠ [])
    (hall : ∀ t ∈ ts, jsToUpper t = jsToUpper w) :
    compare lex freq ⟨ts, schemes, limit⟩ = compare lex freq ⟨[w], schemes, limit⟩ := by
  unfold compare
  have hmapall : ∀ x ∈ ts.map jsToUpper, x = jsToUpper w := by
    intro x hx
    obtain ⟨t, ht, rfl⟩ := List.mem_map.mp hx
    exact hall t ht
  have hmapne : ts.map jsToUpper ≠ [] := by
    simpa using hne
  have h1 : (ts.map jsToUpper).filterMap (fun t => lex.lookup t) =
      match lex.lookup (jsToUpper w) with
      | none => []
      | some e => List.replicate (ts.map jsToUpper).length e :=
    filterMap_const_eq _ _ hmapall _
  have h2 : ([w].map jsToUpper).filterMap (fun t => lex.lookup t) =
      match lex.lookup (jsToUpper w) with
      | none => []
      | some e => List.replicate 1 e := by
    have := filterMap_const_eq ([w].map jsToUpper) (jsToUpper w)
      (by simp) (fun t => lex.lookup t)
    simpa using this
  cases hWl : lex.lookup (jsToUpper w) with
  | none =>
    rw [hWl] at h1 h2
    dsimp only at h1 h2 ⊢
    rw [h1, h2]
    rfl
  | some e =>
    rw [hWl] at h1 h2
    dsimp only at h1 h2 ⊢
    rw [h1, h2]
    have hlen : 0 < ts.length := List.length_pos.mpr hne
    have hne1 : ((List.replicate (ts.map jsToUpper).length e).isEmpty) = false := by
      rw [List.length_map]
      cases hts : ts with
      | nil => exact absurd hts hne
      | cons a as => rfl
    have hne2 : ((List.replicate 1 e).isEmpty) = false := rfl
    rw [hne1, hne2]
    have hstep : compareStep (ts.map jsToUpper)
        (List.replicate (ts.map jsToUpper).length e) schemes freq =
        compareStep ([w].map jsToUpper) (List.replicate 1 e) schemes freq := by
      funext acc we
      unfold compareStep
      have hc1 : (ts.map jsToUpper).contains we.1 = (we.1 == jsToUpper w) :=
        contains_all_eq _ _ hmapne hmapall we.1
      have hc2 : ([w].map jsToUpper).contains we.1 = (we.1 == jsToUpper w) := by
        by_cases hyx : we.1 = jsToUpper w <;> simp [hyx]
      have hrep : scoreCandidate we.1 we.2
          (List.replicate (ts.map jsToUpper).length e) schemes =
          scoreCandidate we.1 we.2 (List.replicate 1 e) schemes := by
        rw [scoreCandidate_replicate we.1 we.2 e (ts.map jsToUpper).length
          (by rw [List.length_map]; exact hlen) schemes]
        rfl
      simp only [hc1, hc2, hrep]
    rw [hstep]

/-- C9 counterexample: with targets [CAT, CAT, DOG] the duplicate CAT is
counted twice in the per-scheme mean (BAT scores 2/3 instead of 1/2), so
removing the duplicate changes the result. -/
theorem c9_counterexample :
    compare lexSample []
        ⟨["CAT", "CAT", "DOG"], [SchemeConfig.mk "perfect" 1], none⟩ ≠
      compare lexSample []
        ⟨["CAT", "DOG"], [SchemeConfig.mk "perfect" 1], none⟩ := by
  with_unfolding_all decide

/-- Witness for C9 (amended) at the spec's own example. -/
theorem c9_duplicate_single_target_witness :
    ((["CAT", "CAT"] : List String) ≠ [] ∧
      (∀ t ∈ ["CAT", "CAT"], jsToUpper t = jsToUpper "CAT")) ∧
    compare lexSample [] ⟨["CAT", "CAT"], [SchemeConfig.mk "perfect" 1], none⟩ =
      compare lexSample [] ⟨["CAT"], [SchemeConfig.mk "perfect" 1], none⟩ := by
  refine ⟨⟨by simp, ?_⟩, ?_⟩
  · intro t ht
    rcases List.mem_cons.mp ht with rfl | ht'
    · rfl
    · rcases List.mem_cons.mp ht' with rfl | h
      · rfl
      · simp at h
  · exact c9_duplicate_single_target lexSample [] [SchemeConfig.mk "perfect" 1]
      none ["CAT", "CAT"] "CAT" (by simp)
      (fun t ht => by
        rcases List.mem_cons.mp ht with rfl | ht'
        · rfl
        · rcases List.mem_cons.mp ht' with rfl | h
          · rfl
          · simp at h)

end Rhymer
